import Mathlib

/-!
Verification of the kapprover decision core: the inspector registry and
pipeline builder (`inspectors/inspectors.go`) and the automatic-approval
rule with its persist-with-retry protocol (`approvers/always/always.go`).

Go strings are modelled as `List Char`; the Go map backing the registry is
modelled as an association list; the Kubernetes client used by
`Always.Approve` is modelled as a script of responses consumed in order.
-/

namespace Kapprover

/-- Go strings, modelled as lists of characters. -/
abbrev Str := List Char

/-! ### String primitives used by the source -/

/-- Whether `pat` is a prefix of `s` (helper for Go `strings.Contains`). -/
def listHasPre : Str → Str → Bool
  | _, [] => true
  | [], _ :: _ => false
  | a :: as, b :: bs => a == b && listHasPre as bs

/-- Go `strings.Contains s pat`: `pat` occurs contiguously in `s`. -/
def listHasSub : Str → Str → Bool
  | [], pat => listHasPre [] pat
  | a :: as, pat => listHasPre (a :: as) pat || listHasSub as pat

/-- Go `strings.SplitN s sep 2` (single-character separator): `none` when
`sep` does not occur, otherwise the parts before and after its first
occurrence. -/
def splitFirst (c : Char) : Str → Option (Str × Str)
  | [] => none
  | x :: xs =>
    if x = c then some ([], xs)
    else match splitFirst c xs with
      | none => none
      | some (a, b) => some (x :: a, b)

/-- Go `strings.SplitN s "=" 2` packaged as (first part, optional rest). -/
def splitN2 (c : Char) (s : Str) : Str × Option Str :=
  match splitFirst c s with
  | none => (s, none)
  | some (a, b) => (a, some b)

/-- Go `strings.ToLower` (ASCII case folding suffices for this program). -/
def strLower (s : Str) : Str := s.map Char.toLower

/-! ### Inspectors and the registry (`inspectors/inspectors.go`) -/

/-- An Inspector as used by the pipeline builder: the `Configure` method
returns a new configured instance or an error.  (The `Inspect` method plays
no part in the builder or registry and is omitted from the model.) -/
inductive Inspector where
  | mk (configure : Str → Except Str Inspector)

/-- Invoke the `Configure` method of an inspector. -/
def Inspector.configure : Inspector → Str → Except Str Inspector
  | .mk f => f

/-- One member of a policy pipeline (`NamedInspector` in the source). -/
structure NamedInspector where
  Name : Str
  Config : Str
  inspector : Inspector

/-- A slice of named Inspectors forming a policy (`type Inspectors []NamedInspector`). -/
abbrev Inspectors := List NamedInspector

/-- The process-wide inspector registry (`map[string]Inspector`), modelled as
an association list; the `sync.RWMutex` serialization is implicit in the
sequential model. -/
abbrev Registry := List (Str × Inspector)

/-- Go `Get` returns the registered Inspector with a provided name
(case-sensitive map lookup, as in the source). -/
def Get : Registry → Str → Option Inspector
  | [], _ => none
  | (k, v) :: r, n => if k = n then some v else Get r n

/-- Go `List()` returns the list of the registered inspectors' names. -/
def listNames (reg : Registry) : List Str := reg.map Prod.fst

/-- Go `Unregister` removes an Inspector with a particular name (no case
folding; Go `delete` on the map). -/
def Unregister : Registry → Str → Registry
  | [], _ => []
  | (k, v) :: r, n => if k = n then Unregister r n else (k, v) :: Unregister r n

/-- Go `Register` makes an Inspector available by the provided name, storing it
under `strings.ToLower name`.  The Go function panics when the name is
empty, the instance is nil, or the (lowercased) name is already taken;
panicking is modelled as `none`. -/
def Register (reg : Registry) (name : Str) (a : Option Inspector) : Option Registry :=
  if name = [] then none
  else
    match a with
    | none => none
    | some inst =>
      let lname := strLower name
      match Get reg lname with
      | some _ => none
      | none => some ((lname, inst) :: reg)

/-- The error text produced by `Inspectors.Set` for an unknown inspector
name: `fmt.Sprintf("Could not find inspector %q, registered approvers: %s",
name, strings.Join(List(), ","))`. -/
def notFoundMsg (name : Str) (reg : Registry) : Str :=
  "Could not find inspector \"".toList ++ name ++
    "\", registered approvers: ".toList ++ [','].intercalate (listNames reg)

/-- The body of `Inspectors.Set` up to the final append: split the token on
the first `=`, look the name up, and configure when the config is
non-empty; yields the `NamedInspector` to append or the error. -/
def setEntry (reg : Registry) (value : Str) : Except Str NamedInspector :=
  let split := splitN2 '=' value
  let name := split.1
  match Get reg name with
  | none => .error (notFoundMsg name reg)
  | some inspector =>
    let config := match split.2 with
      | some c => c
      | none => []
    if config = [] then .ok ⟨name, config, inspector⟩
    else
      match inspector.configure config with
      | .error e => .error e
      | .ok configured => .ok ⟨name, config, configured⟩

/-- Go `Inspectors.Set`: on success the entry is appended to the pipeline; on
error the pipeline is returned unchanged together with the error. -/
def Inspectors.set (reg : Registry) (value : Str) (l : Inspectors) :
    Inspectors × Option Str :=
  match setEntry reg value with
  | .ok ent => (l ++ [ent], none)
  | .error e => (l, some e)

/-- Render one pipeline member: `name` when the config is empty, otherwise
`name=config` (the body of the loop in `Inspectors.String`). -/
def NamedInspector.render (n : NamedInspector) : Str :=
  if n.Config = [] then n.Name else n.Name ++ '=' :: n.Config

/-- Go `Inspectors.String`: the members rendered in order, joined by `,`. -/
def Inspectors.string (l : Inspectors) : Str :=
  [','].intercalate (l.map NamedInspector.render)

/-- Feed a list of tokens to `Inspectors.Set` in order, stopping at the
first error (helper for `parseSpec`). -/
def buildTokens (reg : Registry) : List Str → Inspectors → Except Str Inspectors
  | [], l => .ok l
  | t :: ts, l =>
    match Inspectors.set reg t l with
    | (l', none) => buildTokens reg ts l'
    | (_, some e) => .error e

/-- Modelled from the spec: the driver that parses a whole policy
specification is not under `src/` (it lives in the program's main
package); per the spec it splits the whole spec on `,` into tokens in
left-to-right order, feeds each token to `Inspectors.Set`, and rejects the
whole pipeline on the first error, returning no partial policy. -/
def parseSpec (reg : Registry) (s : Str) : Except Str Inspectors :=
  buildTokens reg (s.splitOn ',') []

/-! ### The automatic-approval rule (`approvers/always/always.go`) -/

/-- Condition type: `certificates.CertificateApproved` / `CertificateDenied`. -/
inductive CondType where
  | approved
  | denied
deriving DecidableEq

/-- A `CertificateSigningRequestCondition`. -/
structure Condition where
  type : CondType
  reason : Str
  message : Str
deriving DecidableEq

/-- The parts of a `CertificateSigningRequest` read or written by the core:
`ObjectMeta.Name`, `Spec.Username`, `Spec.Groups`, `Status.Conditions`. -/
structure Csr where
  name : Str
  username : Str
  groups : List Str
  conditions : List Condition
deriving DecidableEq

/-- The fixed bootstrap identity (`kubeletBootstrapUsername`). -/
def kubeletBootstrapUsername : Str := "kubelet-bootstrap".toList

/-- The fixed bootstrap group (`kubeletBootstrapGroup`). -/
def kubeletBootstrapGroup : Str := "system:kubelet-bootstrap".toList

/-- The condition appended by `Always.Approve`. -/
def autoCondition : Condition :=
  { type := .approved
    reason := "AutoApproved".toList
    message := "Auto approving of all kubelet CSRs is enabled on bootkube".toList }

/-- The conflict-indicator substring matched against update errors. -/
def conflictNeedle : Str := "the object has been modified".toList

/-- The CSR store client, modelled as a script of responses consumed in
order: one entry of `updates` per `UpdateApproval` call (`none` = success,
`some e` = error `e`), one entry of `gets` per `Get` call. -/
structure Client where
  updates : List (Option Str)
  gets : List (Except Str Csr)

/-- Outcome of `Always.Approve`: `ok` = nil error, `err e` = error `e`
returned, `stuck` = the response script was exhausted (the real client
would keep answering; theorems only use adequately long scripts). -/
inductive AResult where
  | ok
  | err (e : Str)
  | stuck
deriving DecidableEq

/-- Observable outcome of a run of `Always.Approve`: the returned error,
the final state of the caller's request object (the pointee of the
`request` argument at call time — later `Get` results rebind only the
local variable), and the arguments of every `UpdateApproval` and `Get`
call made, in order. -/
structure ApproveOut where
  result : AResult
  callerReq : Csr
  updateCalls : List Csr
  getCalls : List Str
deriving DecidableEq

/-- The in-place mutation `request.Status.Conditions = append(request.Status.Conditions, condition)`. -/
def appendCond (cur : Csr) : Csr :=
  { cur with conditions := cur.conditions ++ [autoCondition] }

/-- The three early-return checks at the top of the loop: an existing
condition, a non-bootstrap username, or a missing bootstrap group each
make the rule return nil with no action. -/
def abstains (cur : Csr) : Bool :=
  cur.conditions.length > 0 || cur.username != kubeletBootstrapUsername ||
    !(cur.groups.contains kubeletBootstrapGroup)

/-- The loop of `Always.Approve`, consuming one `updates` entry per
`UpdateApproval` call.  `aliased` records whether the local `request`
variable still points at the caller's object (`orig`); it does until the
first re-fetch, whose result rebinds only the local variable.  While
aliased, the in-place append of the condition is visible through `orig`
as well. -/
def approveAux : List (Option Str) → List (Except Str Csr) → Bool → Csr → Csr → ApproveOut
  | [], _, aliased, orig, cur =>
    if abstains cur then ⟨.ok, orig, [], []⟩
    else ⟨.stuck, if aliased then appendCond cur else orig, [appendCond cur], []⟩
  | none :: _, _, aliased, orig, cur =>
    if abstains cur then ⟨.ok, orig, [], []⟩
    else ⟨.ok, if aliased then appendCond cur else orig, [appendCond cur], []⟩
  | some e :: us', gs, aliased, orig, cur =>
    if abstains cur then ⟨.ok, orig, [], []⟩
    else
      let orig' := if aliased then appendCond cur else orig
      if listHasSub e conflictNeedle then
        match gs with
        | [] => ⟨.stuck, orig', [appendCond cur], [cur.name]⟩
        | .error ge :: _ => ⟨.err ge, orig', [appendCond cur], [cur.name]⟩
        | .ok fresh :: gs' =>
          let r := approveAux us' gs' false orig' fresh
          ⟨r.result, r.callerReq, appendCond cur :: r.updateCalls, cur.name :: r.getCalls⟩
      else ⟨.err e, orig', [appendCond cur], []⟩

/-- Run of `Always.Approve client request`: run the loop starting with the local
variable aliased to the caller's object. -/
def Always.approve (client : Client) (request : Csr) : ApproveOut :=
  approveAux client.updates client.gets true request request

/-! ### Concrete objects used by counterexamples and witnesses -/

/-- A concrete bootstrap-identity request used by concrete runs. -/
def reqBoot : Csr :=
  ⟨"csr-1".toList, kubeletBootstrapUsername, [kubeletBootstrapGroup], []⟩

/-- A concrete freshly-fetched request that already carries a condition. -/
def freshDecided : Csr :=
  ⟨"csr-1".toList, kubeletBootstrapUsername, [kubeletBootstrapGroup], [autoCondition]⟩

/-- An inspector whose `Configure` always fails (any concrete instance). -/
def baseInsp : Inspector := .mk fun _ => .error []

/-- An inspector whose `Configure` always succeeds, returning `baseInsp`. -/
def okInsp : Inspector := .mk fun _ => .ok baseInsp

/-- An entry is good for a registry when re-parsing its rendered form
under that registry rebuilds exactly the entry, and its rendering is
comma-free. -/
def GoodEnt (reg : Registry) (ent : NamedInspector) : Prop :=
  setEntry reg ent.render = .ok ent ∧ ',' ∉ ent.render

/-- The registry holding `x` and `y` used by the concrete round trip. -/
def regXY : Registry := [("x".toList, okInsp), ("y".toList, okInsp)]

/-- The pipeline built from the spec `x=1,y` against `regXY`. -/
def pXY : Inspectors :=
  [⟨"x".toList, "1".toList, baseInsp⟩, ⟨"y".toList, [], okInsp⟩]

/-! ### Lemmas about the string primitives -/

theorem listHasPre_refl_append (p t : Str) : listHasPre (p ++ t) p = true := by
  induction p with
  | nil => cases t <;> rfl
  | cons a as ih => simp [listHasPre, ih]

theorem listHasSub_of_pre (s p : Str) (h : listHasPre s p = true) :
    listHasSub s p = true := by
  cases s with
  | nil => cases p with
    | nil => rfl
    | cons b bs => simp [listHasPre] at h
  | cons a as => simp [listHasSub, h]

theorem listHasSub_append_left (x s p : Str) (h : listHasSub s p = true) :
    listHasSub (x ++ s) p = true := by
  induction x with
  | nil => simpa using h
  | cons a as ih => simp [listHasSub, ih]

theorem listHasSub_self_append (p t : Str) : listHasSub (p ++ t) p = true :=
  listHasSub_of_pre _ _ (listHasPre_refl_append p t)

theorem splitFirst_eq_none_of_not_mem (c : Char) (s : Str) (h : c ∉ s) :
    splitFirst c s = none := by
  induction s with
  | nil => rfl
  | cons x xs ih =>
    have hx : ¬ x = c := fun hc => h (hc ▸ List.mem_cons_self x xs)
    have hxs : c ∉ xs := fun hc => h (List.mem_cons_of_mem x hc)
    simp [splitFirst, hx, ih hxs]

theorem splitFirst_append (c : Char) (a b : Str) (h : c ∉ a) :
    splitFirst c (a ++ c :: b) = some (a, b) := by
  induction a with
  | nil => simp [splitFirst]
  | cons x xs ih =>
    have hx : ¬ x = c := fun hc => h (hc ▸ List.mem_cons_self x xs)
    have hxs : c ∉ xs := fun hc => h (List.mem_cons_of_mem x hc)
    simp [splitFirst, hx, ih hxs]

theorem splitFirst_spec (c : Char) (s a b : Str)
    (h : splitFirst c s = some (a, b)) : s = a ++ c :: b ∧ c ∉ a := by
  induction s generalizing a with
  | nil => simp [splitFirst] at h
  | cons x xs ih =>
    by_cases hx : x = c
    · simp [splitFirst, hx] at h
      obtain ⟨ha, hb⟩ := h
      subst hx
      subst ha
      subst hb
      exact ⟨rfl, List.not_mem_nil x⟩
    · simp only [splitFirst, if_neg hx] at h
      cases hsp : splitFirst c xs with
      | none => rw [hsp] at h; simp at h
      | some p =>
        rw [hsp] at h
        obtain ⟨a', b'⟩ := p
        simp only [Option.some.injEq, Prod.mk.injEq] at h
        obtain ⟨ha, hb⟩ := h
        obtain ⟨hxs, hna⟩ := ih a' (by rw [hsp, hb])
        constructor
        · rw [← ha, hxs]; rfl
        · rw [← ha]
          intro hc
          rcases List.mem_cons.mp hc with h1 | h2
          · exact hx h1.symm
          · exact hna h2

theorem splitN2_of_not_mem (c : Char) (s : Str) (h : c ∉ s) :
    splitN2 c s = (s, none) := by
  simp [splitN2, splitFirst_eq_none_of_not_mem c s h]

theorem splitN2_append (c : Char) (a b : Str) (h : c ∉ a) :
    splitN2 c (a ++ c :: b) = (a, some b) := by
  simp [splitN2, splitFirst_append c a b h]

/-! ### Helper lemmas about the approval loop -/

/-- When any of the three early-return checks fires, the loop returns nil
with no action regardless of the store script. -/
theorem approveAux_abstains (us : List (Option Str)) (gs : List (Except Str Csr))
    (aliased : Bool) (orig cur : Csr) (h : abstains cur = true) :
    approveAux us gs aliased orig cur = ⟨.ok, orig, [], []⟩ := by
  cases us with
  | nil => simp [approveAux, h]
  | cons u us' => cases u <;> simp [approveAux, h]

/-- Once the local `request` variable no longer aliases the caller's
object, the caller's object is returned unchanged. -/
theorem approveAux_callerReq_unaliased (us : List (Option Str)) :
    ∀ gs orig cur, (approveAux us gs false orig cur).callerReq = orig := by
  induction us with
  | nil =>
    intro gs orig cur
    by_cases h : abstains cur <;> simp [approveAux, h]
  | cons u us ih =>
    intro gs orig cur
    cases u with
    | none => by_cases h : abstains cur <;> simp [approveAux, h]
    | some e =>
      by_cases h : abstains cur
      · simp [approveAux, h]
      · by_cases he : listHasSub e conflictNeedle
        · cases gs with
          | nil => simp [approveAux, h, he]
          | cons g gs' =>
            cases g with
            | error ge => simp [approveAux, h, he]
            | ok fresh => simp [approveAux, h, he, ih]
        · simp [approveAux, h, he]

/-- The caller's request object after `Always.Approve` is either untouched
or has exactly the automatic `Approved` condition appended. -/
theorem approve_callerReq_cases (client : Client) (req : Csr) :
    (Always.approve client req).callerReq = req ∨
      (Always.approve client req).callerReq = appendCond req := by
  unfold Always.approve
  by_cases h : abstains req
  · rw [approveAux_abstains _ _ _ _ _ h]
    exact Or.inl rfl
  · refine Or.inr ?_
    cases hus : client.updates with
    | nil => simp [approveAux, h]
    | cons u us' =>
      cases u with
      | none => simp [approveAux, h]
      | some e =>
        by_cases he : listHasSub e conflictNeedle
        · cases hgs : client.gets with
          | nil => simp [approveAux, h, he]
          | cons g gs' =>
            cases g with
            | error ge => simp [approveAux, h, he]
            | ok fresh => simp [approveAux, h, he, approveAux_callerReq_unaliased]
        · simp [approveAux, h, he]

/-! ### C4: idempotent no-op on an already-decided request -/

/-- C4: for every request already carrying at least one condition,
`Always.Approve` returns success without appending a condition, without
making any store call, and leaves the request unchanged; hence a second
invocation on the already-decided request again leaves the request and the
store untouched. -/
theorem approve_idempotent_noop (client client₂ : Client) (req : Csr)
    (h : req.conditions ≠ []) :
    Always.approve client req = ⟨.ok, req, [], []⟩ ∧
      Always.approve client₂ ((Always.approve client req).callerReq) =
        ⟨.ok, req, [], []⟩ := by
  have ha : abstains req = true := by
    have hl : 0 < req.conditions.length := List.length_pos.mpr h
    simp only [abstains, Bool.or_eq_true, decide_eq_true_eq]
    exact Or.inl (Or.inl hl)
  have h1 : Always.approve client req = ⟨.ok, req, [], []⟩ :=
    approveAux_abstains _ _ _ _ _ ha
  refine ⟨h1, ?_⟩
  rw [h1]
  exact approveAux_abstains _ _ _ _ _ ha

/-- Witness for C4 at a concrete decided request. -/
theorem approve_idempotent_noop_witness :
    Always.approve ⟨[none], []⟩
        ⟨"csr-9".toList, "joe".toList, [], [autoCondition]⟩ =
      ⟨.ok, ⟨"csr-9".toList, "joe".toList, [], [autoCondition]⟩, [], []⟩ :=
  (approve_idempotent_noop ⟨[none], []⟩ ⟨[], []⟩
    ⟨"csr-9".toList, "joe".toList, [], [autoCondition]⟩ (by decide)).1

/-! ### C5: silent abstention on identity mismatch; the rule never denies -/

/-- C5: a condition-free request whose submitter username is not exactly
`kubelet-bootstrap`, or none of whose groups is exactly
`system:kubelet-bootstrap`, is left alone: success, no condition appended,
no store call.  Moreover the rule never denies: the caller's request is
either untouched or has exactly the automatic `Approved` condition
appended, and that condition's type is `Approved`. -/
theorem approve_abstains_on_identity_mismatch (client : Client) (req : Csr) :
    (req.conditions = [] →
      (req.username ≠ kubeletBootstrapUsername ∨
        req.groups.contains kubeletBootstrapGroup = false) →
      Always.approve client req = ⟨.ok, req, [], []⟩) ∧
    ((Always.approve client req).callerReq = req ∨
      (Always.approve client req).callerReq = appendCond req) ∧
    autoCondition.type = .approved := by
  refine ⟨?_, approve_callerReq_cases client req, rfl⟩
  intro hc hmiss
  have ha : abstains req = true := by
    simp only [abstains, Bool.or_eq_true, decide_eq_true_eq, bne_iff_ne,
      Bool.not_eq_true']
    rcases hmiss with hu | hg
    · exact Or.inl (Or.inr hu)
    · exact Or.inr hg
  exact approveAux_abstains _ _ _ _ _ ha

/-- Witness for C5 at a concrete request with the bootstrap username but a
wrong group. -/
theorem approve_abstains_on_identity_mismatch_witness :
    Always.approve ⟨[none], []⟩
        ⟨"csr-7".toList, kubeletBootstrapUsername, ["nodes".toList], []⟩ =
      ⟨.ok, ⟨"csr-7".toList, kubeletBootstrapUsername, ["nodes".toList], []⟩, [], []⟩ :=
  (approve_abstains_on_identity_mismatch ⟨[none], []⟩
      ⟨"csr-7".toList, kubeletBootstrapUsername, ["nodes".toList], []⟩).1
    (by decide) (Or.inr (by decide))

/-- The combined early-return check fires when the request has a
condition, a wrong username, or no bootstrap group. -/
theorem abstains_true_of (cur : Csr)
    (h : cur.conditions ≠ [] ∨ cur.username ≠ kubeletBootstrapUsername ∨
      cur.groups.contains kubeletBootstrapGroup = false) :
    abstains cur = true := by
  rcases h with h | h | h
  · have hl : 0 < cur.conditions.length := List.length_pos.mpr h
    simp [abstains, hl]
  · simp [abstains, h]
  · have hm : kubeletBootstrapGroup ∉ cur.groups := fun hmem =>
      (Bool.eq_false_iff.mp h) (List.elem_eq_true_of_mem hmem)
    simp [abstains, hm]

/-- The early-return check passes for a condition-free request with the
exact bootstrap username and group. -/
theorem abstains_false_of (cur : Csr)
    (hc : cur.conditions = []) (hu : cur.username = kubeletBootstrapUsername)
    (hg : cur.groups.contains kubeletBootstrapGroup = true) :
    abstains cur = false := by
  have hm : kubeletBootstrapGroup ∈ cur.groups := List.mem_of_elem_eq_true hg
  simp [abstains, hc, hu, hm]

/-! ### C2: a non-conflict update error propagates, but the in-memory
mutation is kept -/

/-- Counterexample to C2 as stated: with a store whose update call fails
with the non-conflict error `boom`, `Always.Approve` returns that error,
yet the caller's request object does carry the appended condition (its
condition list is no longer empty as it was before the call). -/
theorem approve_mutation_not_discarded_cex :
    (Always.approve ⟨[some "boom".toList], []⟩ reqBoot).result =
        .err "boom".toList ∧
      (Always.approve ⟨[some "boom".toList], []⟩ reqBoot).callerReq.conditions ≠ [] := by
  decide

/-- C2 amended: for every request passing the bootstrap checks and every
store whose update call fails with a non-conflict error, `Always.Approve`
propagates that error verbatim to the caller, but the request's in-memory
mutation is NOT discarded: the caller's request object carries the
appended `Approved` condition (the store's copy is untouched — the failed
update is the only store call). -/
theorem approve_nonconflict_error_keeps_mutation (req : Csr) (e : Str)
    (us : List (Option Str)) (gs : List (Except Str Csr))
    (hc : req.conditions = []) (hu : req.username = kubeletBootstrapUsername)
    (hg : req.groups.contains kubeletBootstrapGroup = true)
    (he : listHasSub e conflictNeedle = false) :
    Always.approve ⟨some e :: us, gs⟩ req =
      ⟨.err e, appendCond req, [appendCond req], []⟩ := by
  have ha : abstains req = false := abstains_false_of req hc hu hg
  unfold Always.approve
  simp [approveAux, ha, he]

/-- Witness for the amended C2 at a concrete request and store. -/
theorem approve_nonconflict_error_keeps_mutation_witness :
    Always.approve ⟨[some "boom".toList], []⟩ reqBoot =
      ⟨.err "boom".toList, appendCond reqBoot, [appendCond reqBoot], []⟩ :=
  approve_nonconflict_error_keeps_mutation reqBoot "boom".toList [] []
    rfl rfl (by decide) (by decide)

/-! ### C3: the persist-with-retry protocol -/

/-- C3: for a request passing the bootstrap checks,
(i) an update failure not matching the conflict indicator is returned
immediately — one update call, no re-fetch;
(ii) on a conflict-matching failure the object is re-fetched by its
identity, and a failing re-fetch propagates that error;
(iii) after a successful re-fetch the three preconditions are re-checked
against the fresh object before any retry — if any fails, the run ends
with success and no second update call;
(iv) if the fresh object passes the re-check, the update is retried. -/
theorem approve_retry_protocol (req : Csr)
    (hc : req.conditions = []) (hu : req.username = kubeletBootstrapUsername)
    (hg : req.groups.contains kubeletBootstrapGroup = true) :
    (∀ e us gs, listHasSub e conflictNeedle = false →
      Always.approve ⟨some e :: us, gs⟩ req =
        ⟨.err e, appendCond req, [appendCond req], []⟩) ∧
    (∀ e us ge gs, listHasSub e conflictNeedle = true →
      Always.approve ⟨some e :: us, .error ge :: gs⟩ req =
        ⟨.err ge, appendCond req, [appendCond req], [req.name]⟩) ∧
    (∀ e us gs fresh, listHasSub e conflictNeedle = true →
      (fresh.conditions ≠ [] ∨ fresh.username ≠ kubeletBootstrapUsername ∨
        fresh.groups.contains kubeletBootstrapGroup = false) →
      Always.approve ⟨some e :: us, .ok fresh :: gs⟩ req =
        ⟨.ok, appendCond req, [appendCond req], [req.name]⟩) ∧
    (∀ e gs fresh, listHasSub e conflictNeedle = true →
      fresh.conditions = [] → fresh.username = kubeletBootstrapUsername →
      fresh.groups.contains kubeletBootstrapGroup = true →
      Always.approve ⟨[some e, none], .ok fresh :: gs⟩ req =
        ⟨.ok, appendCond req, [appendCond req, appendCond fresh], [req.name]⟩) := by
  have ha : abstains req = false := abstains_false_of req hc hu hg
  refine ⟨?_, ?_, ?_, ?_⟩
  · intro e us gs he
    unfold Always.approve
    simp [approveAux, ha, he]
  · intro e us ge gs he
    unfold Always.approve
    simp [approveAux, ha, he]
  · intro e us gs fresh he hfresh
    have hf : abstains fresh = true := abstains_true_of fresh hfresh
    unfold Always.approve
    simp [approveAux, ha, he, approveAux_abstains us gs false (appendCond req) fresh hf]
  · intro e gs fresh he hfc hfu hfg
    have hf : abstains fresh = false := abstains_false_of fresh hfc hfu hfg
    unfold Always.approve
    simp [approveAux, ha, he, hf]

/-- Witness for C3: a concrete conflicting first update followed by a
re-fetch; part (iii) with an already-decided fresh object, part (iv) with
a still-pending fresh object. -/
theorem approve_retry_protocol_witness :
    Always.approve ⟨[some conflictNeedle, none], [.ok freshDecided]⟩ reqBoot =
        ⟨.ok, appendCond reqBoot, [appendCond reqBoot], [reqBoot.name]⟩ ∧
      Always.approve ⟨[some conflictNeedle, none], [.ok reqBoot]⟩ reqBoot =
        ⟨.ok, appendCond reqBoot, [appendCond reqBoot, appendCond reqBoot],
          [reqBoot.name]⟩ := by
  have h := approve_retry_protocol reqBoot rfl rfl (by decide)
  exact ⟨h.2.2.1 conflictNeedle [none] [] freshDecided (by decide)
      (Or.inl (by decide)),
    h.2.2.2 conflictNeedle [] reqBoot (by decide) rfl rfl (by decide)⟩

/-! ### C7: `Register` panics exactly on empty name, nil instance, or
duplicate lowercased name -/

/-- C7: `Register(name, instance)` panics iff the name is empty, the
instance is nil, or an entry already exists under `lowercase(name)`;
otherwise it stores the instance under `lowercase(name)` and returns
normally.  In particular registering `"A"` and then `"a"` panics. -/
theorem register_panics_iff (reg : Registry) (n : Str) (inst : Inspector) :
    (∀ a : Option Inspector, Register reg n a = none ↔
      (n = [] ∨ a = none ∨ (Get reg (strLower n)).isSome = true)) ∧
    (n ≠ [] → Get reg (strLower n) = none →
      Register reg n (some inst) = some ((strLower n, inst) :: reg)) ∧
    (∀ (r : Registry) (i : Inspector),
      Register [] "A".toList (some inst) = some r →
      Register r "a".toList (some i) = none) := by
  refine ⟨?_, ?_, ?_⟩
  · intro a
    unfold Register
    by_cases hn : n = []
    · simp [hn]
    · cases a with
      | none => simp [hn]
      | some i =>
        cases hG : Get reg (strLower n) with
        | none => simp [hn, hG]
        | some v => simp [hn, hG]
  · intro hn hG
    unfold Register
    simp [hn, hG]
  · intro r i hr
    have hA : Register [] "A".toList (some inst) = some [("a".toList, inst)] := rfl
    rw [hA] at hr
    have hr' : [("a".toList, inst)] = r := by injection hr
    subst hr'
    rfl

/-- Witness for C7: registering `"A"` succeeds on an empty registry and
stores under `"a"`; registering `"a"` afterwards panics. -/
theorem register_panics_iff_witness :
    Register [] "A".toList (some okInsp) = some [("a".toList, okInsp)] ∧
      Register [("a".toList, okInsp)] "a".toList (some okInsp) = none ∧
      Register [] [] (some okInsp) = none ∧
      Register [("a".toList, okInsp)] "b".toList none = none := by
  have h := register_panics_iff [] "A".toList okInsp
  have h2 := register_panics_iff [("a".toList, okInsp)] "a".toList okInsp
  have h3 := register_panics_iff [] ([] : Str) okInsp
  have h4 := register_panics_iff [("a".toList, okInsp)] "b".toList okInsp
  refine ⟨?_, ?_, ?_, ?_⟩
  · exact h.2.1 (by decide) rfl
  · exact (h2.1 (some okInsp)).mpr (Or.inr (Or.inr rfl))
  · exact (h3.1 (some okInsp)).mpr (Or.inl rfl)
  · exact (h4.1 none).mpr (Or.inr (Or.inl rfl))

/-! ### C9: token splitting on the first `=` and when `Configure` runs -/

/-- C9: a token is split on the first `=` only — the name is the text
before the first `=`, the config is the entire remainder (not re-split,
may contain further `=`), and the config is empty when the token has no
`=`; `Configure` is invoked exactly when the config is non-empty, with
the literal config string. -/
theorem set_splits_token_on_first_eq (reg : Registry) (name cfg : Str)
    (inst : Inspector) (l : Inspectors)
    (hn : '=' ∉ name) (hget : Get reg name = some inst) :
    (cfg = [] →
      Inspectors.set reg (name ++ '=' :: cfg) l = (l ++ [⟨name, [], inst⟩], none)) ∧
    (cfg ≠ [] →
      Inspectors.set reg (name ++ '=' :: cfg) l =
        match inst.configure cfg with
        | .ok i => (l ++ [⟨name, cfg, i⟩], none)
        | .error e => (l, some e)) ∧
    Inspectors.set reg name l = (l ++ [⟨name, [], inst⟩], none) := by
  refine ⟨?_, ?_, ?_⟩
  · intro hcfg
    subst hcfg
    unfold Inspectors.set setEntry
    simp [splitN2_append '=' name [] hn, hget]
  · intro hcfg
    unfold Inspectors.set setEntry
    rw [splitN2_append '=' name cfg hn]
    simp only [hget]
    rw [if_neg hcfg]
    cases inst.configure cfg <;> simp
  · unfold Inspectors.set setEntry
    simp [splitN2_of_not_mem '=' name hn, hget]

/-- Witness for C9: the config `a=b` keeps its inner `=` and is passed
verbatim to `Configure`. -/
theorem set_splits_token_on_first_eq_witness :
    Inspectors.set [("x".toList, okInsp)] "x=a=b".toList [] =
        ([⟨"x".toList, "a=b".toList, baseInsp⟩], none) ∧
      Inspectors.set [("x".toList, okInsp)] "x".toList [] =
        ([⟨"x".toList, [], okInsp⟩], none) := by
  have h := set_splits_token_on_first_eq [("x".toList, okInsp)] "x".toList
    "a=b".toList okInsp [] (by decide) rfl
  exact ⟨h.2.1 (by decide), h.2.2⟩

/-! ### C8: unknown-name error message and fail-fast append -/

/-- The pattern occurs in itself. -/
theorem listHasSub_refl (p : Str) : listHasSub p p = true := by
  simpa using listHasSub_self_append p []

/-- C8: when a token's name is not registered, `Inspectors.Set` fails with
an error whose message contains the requested name and the full current
registry listing; and on any error (unknown name or a `Configure`
failure) the pipeline sequence is returned unchanged — no entry is
appended. -/
theorem set_unknown_name_error_and_failfast (reg : Registry) (tok : Str)
    (l : Inspectors) :
    (Get reg (splitN2 '=' tok).1 = none →
      Inspectors.set reg tok l =
          (l, some (notFoundMsg (splitN2 '=' tok).1 reg)) ∧
        listHasSub (notFoundMsg (splitN2 '=' tok).1 reg) (splitN2 '=' tok).1 = true ∧
        listHasSub (notFoundMsg (splitN2 '=' tok).1 reg)
          ([','].intercalate (listNames reg)) = true) ∧
    (∀ l' e, Inspectors.set reg tok l = (l', some e) → l' = l) := by
  constructor
  · intro hget
    refine ⟨?_, ?_, ?_⟩
    · unfold Inspectors.set setEntry
      simp [hget]
    · unfold notFoundMsg
      rw [List.append_assoc, List.append_assoc]
      exact listHasSub_append_left _ _ _
        (listHasSub_self_append (splitN2 '=' tok).1 _)
    · unfold notFoundMsg
      exact listHasSub_append_left _ _ _
        (listHasSub_refl ([','].intercalate (listNames reg)))
  · intro l' e hset
    unfold Inspectors.set at hset
    cases hse : setEntry reg tok with
    | ok ent => rw [hse] at hset; simp at hset
    | error e' =>
      rw [hse] at hset
      exact (congrArg Prod.fst hset).symm

/-- Witness for C8 at a concrete unknown name. -/
theorem set_unknown_name_error_and_failfast_witness :
    Inspectors.set [("x".toList, okInsp)] "y".toList [] =
        ([], some (notFoundMsg "y".toList [("x".toList, okInsp)])) ∧
      listHasSub (notFoundMsg "y".toList [("x".toList, okInsp)]) "y".toList = true := by
  have h := (set_unknown_name_error_and_failfast [("x".toList, okInsp)]
    "y".toList []).1 rfl
  exact ⟨h.1, h.2.1⟩

/-! ### C10: case folding happens only in `Register` -/

/-- Evaluating `Char.ofNatAux`. -/
theorem char_ofNatAux_toNat (n : Nat) (h : n.isValidChar) :
    (Char.ofNatAux n h).toNat = n := by
  simp [Char.ofNatAux, Char.toNat, UInt32.toNat, BitVec.toNat_ofNatLt]

/-- An uppercase character's code point is in the ASCII uppercase range. -/
theorem char_isUpper_toNat (c : Char) (h : c.isUpper = true) :
    65 ≤ c.toNat ∧ c.toNat ≤ 90 := by
  simp [Char.isUpper] at h
  exact ⟨h.1, h.2⟩

/-- Lowercasing an uppercase character adds 32 to its code point. -/
theorem char_toLower_toNat_of_upper (c : Char) (h : c.isUpper = true) :
    (Char.toLower c).toNat = c.toNat + 32 := by
  obtain ⟨h1, h2⟩ := char_isUpper_toNat c h
  have hvalid : (c.toNat + 32).isValidChar := Or.inl (by omega)
  simp only [Char.toLower]
  rw [if_pos ⟨h1, h2⟩]
  rw [Char.ofNat, dif_pos hvalid]
  exact char_ofNatAux_toNat _ _

/-- Lowercasing changes an uppercase character. -/
theorem char_toLower_ne_of_upper (c : Char) (h : c.isUpper = true) :
    Char.toLower c ≠ c := by
  intro hcontra
  have hn := char_toLower_toNat_of_upper c h
  rw [hcontra] at hn
  omega

/-- A name containing an uppercase character is changed by lowercasing. -/
theorem strLower_ne_of_upper (n : Str) (c : Char) (hmem : c ∈ n)
    (hup : c.isUpper = true) : strLower n ≠ n := by
  induction n with
  | nil => cases hmem
  | cons x xs ih =>
    intro hcontra
    simp only [strLower, List.map_cons, List.cons.injEq] at hcontra
    rcases List.mem_cons.mp hmem with h1 | h1
    · exact char_toLower_ne_of_upper c hup (h1 ▸ hcontra.1)
    · exact ih h1 hcontra.2

/-- In a registry whose keys are all lowercase-fixed, a name changed by
lowercasing is not a key. -/
theorem get_none_of_keys_lower (reg : Registry) (n : Str)
    (hkeys : ∀ k ∈ listNames reg, strLower k = k) (hne : strLower n ≠ n) :
    Get reg n = none := by
  induction reg with
  | nil => rfl
  | cons p r ih =>
    obtain ⟨k, v⟩ := p
    have hk : strLower k = k := hkeys k (List.mem_cons_self _ _)
    have hkn : k ≠ n := by
      intro hkn
      exact hne (hkn ▸ hk)
    simp only [Get, if_neg hkn]
    exact ih fun k' hk' => hkeys k' (List.mem_cons_of_mem _ hk')

/-- Removing a name that is not a key is a no-op. -/
theorem unregister_eq_of_not_key (reg : Registry) (n : Str)
    (h : ∀ k ∈ listNames reg, k ≠ n) : Unregister reg n = reg := by
  induction reg with
  | nil => rfl
  | cons p r ih =>
    obtain ⟨k, v⟩ := p
    have hk : k ≠ n := h k (List.mem_cons_self _ _)
    simp only [Unregister, if_neg hk]
    rw [ih fun k' hk' => h k' (List.mem_cons_of_mem _ hk')]

/-- C10: case normalization happens only in `Register`.  After registering
a name that contains an uppercase character into a registry whose keys are
all lowercase (the invariant `Register` maintains), looking the original
name up fails, building a pipeline token with that exact name fails with
the plugin-not-found error, and `Unregister` with the original name
removes nothing; only the all-lowercase form finds the instance, and no
other key is affected. -/
theorem register_case_folding_only (reg reg' : Registry) (n : Str)
    (inst : Inspector)
    (hup : ∃ c ∈ n, c.isUpper = true)
    (hkeys : ∀ k ∈ listNames reg, strLower k = k)
    (heqn : '=' ∉ n)
    (hr : Register reg n (some inst) = some reg') :
    Get reg' n = none ∧
      (∀ l, Inspectors.set reg' n l = (l, some (notFoundMsg n reg'))) ∧
      Unregister reg' n = reg' ∧
      Get reg' (strLower n) = some inst ∧
      (∀ m, m ≠ strLower n → Get reg' m = Get reg m) := by
  obtain ⟨c, hmem, hupc⟩ := hup
  have hlow : strLower n ≠ n := strLower_ne_of_upper n c hmem hupc
  have hn : n ≠ [] := by
    intro hnil
    subst hnil
    cases hmem
  have hGlow : Get reg (strLower n) = none ∧ reg' = (strLower n, inst) :: reg := by
    unfold Register at hr
    rw [if_neg hn] at hr
    have hr2 : (match Get reg (strLower n) with
        | some _ => none
        | none => some ((strLower n, inst) :: reg)) = some reg' := hr
    cases hG : Get reg (strLower n) with
    | some v => rw [hG] at hr2; simp at hr2
    | none =>
      rw [hG] at hr2
      simp only [Option.some.injEq] at hr2
      exact ⟨rfl, hr2.symm⟩
  obtain ⟨hGlow, hreg'⟩ := hGlow
  subst hreg'
  have hGn : Get reg n = none := get_none_of_keys_lower reg n hkeys hlow
  have hG'n : Get ((strLower n, inst) :: reg) n = none := by
    simp only [Get, if_neg hlow]
    exact hGn
  refine ⟨hG'n, ?_, ?_, ?_, ?_⟩
  · intro l
    unfold Inspectors.set setEntry
    simp [splitN2_of_not_mem '=' n heqn, hG'n]
  · have hkn : ∀ k ∈ listNames reg, k ≠ n := by
      intro k hk hkn
      exact hlow (hkn ▸ hkeys k hk)
    simp only [Unregister, if_neg hlow]
    rw [unregister_eq_of_not_key reg n hkn]
  · simp [Get]
  · intro m hm
    simp only [Get, if_neg (fun hc : strLower n = m => hm hc.symm)]

/-- Witness for C10 with the mixed-case name `Ab` on an empty registry. -/
theorem register_case_folding_only_witness :
    Get [("ab".toList, okInsp)] "Ab".toList = none ∧
      Inspectors.set [("ab".toList, okInsp)] "Ab".toList [] =
        ([], some (notFoundMsg "Ab".toList [("ab".toList, okInsp)])) ∧
      Unregister [("ab".toList, okInsp)] "Ab".toList = [("ab".toList, okInsp)] ∧
      Get [("ab".toList, okInsp)] (strLower "Ab".toList) = some okInsp ∧
      Get [("ab".toList, okInsp)] "q".toList = Get [] "q".toList := by
  have h := register_case_folding_only [] [("ab".toList, okInsp)] "Ab".toList
    okInsp ⟨'A', by decide, by decide⟩ (by intro k hk; cases hk) (by decide) rfl
  exact ⟨h.1, h.2.1 [], h.2.2.1, h.2.2.2.1, h.2.2.2.2 "q".toList (by decide)⟩

/-! ### Helper lemmas for single tokens and token lists -/

/-- When `splitFirst` finds no occurrence, the character is absent. -/
theorem not_mem_of_splitFirst_eq_none (c : Char) (s : Str)
    (h : splitFirst c s = none) : c ∉ s := by
  induction s with
  | nil => exact List.not_mem_nil c
  | cons x xs ih =>
    by_cases hx : x = c
    · simp [splitFirst, hx] at h
    · simp only [splitFirst, if_neg hx] at h
      intro hmem
      rcases List.mem_cons.mp hmem with h1 | h1
      · exact hx h1.symm
      · cases hsp : splitFirst c xs with
        | none => exact ih hsp h1
        | some p => rw [hsp] at h; obtain ⟨a, b⟩ := p; simp at h

/-- Behavior of `setEntry` on a token without `=`: the whole token is the name, the
config is empty, `Configure` is not called. -/
theorem setEntry_noeq (reg : Registry) (name : Str) (inst : Inspector)
    (hn : '=' ∉ name) (hget : Get reg name = some inst) :
    setEntry reg name = .ok ⟨name, [], inst⟩ := by
  unfold setEntry
  rw [splitN2_of_not_mem '=' name hn]
  simp [hget]

/-- Behavior of `setEntry` on a token `name=cfg` with non-empty config: `Configure`
is called with the literal config. -/
theorem setEntry_witheq (reg : Registry) (name cfg : Str) (inst : Inspector)
    (hn : '=' ∉ name) (hget : Get reg name = some inst) (hcfg : cfg ≠ []) :
    setEntry reg (name ++ '=' :: cfg) =
      match inst.configure cfg with
      | .ok i => .ok ⟨name, cfg, i⟩
      | .error e => .error e := by
  unfold setEntry
  rw [splitN2_append '=' name cfg hn]
  simp only [hget]
  rw [if_neg hcfg]
  cases inst.configure cfg <;> simp

/-- Behavior of `setEntry` on a token `name=` with empty config: `Configure` is not
called and the stored config is empty. -/
theorem setEntry_witheq_nil (reg : Registry) (name : Str) (inst : Inspector)
    (hn : '=' ∉ name) (hget : Get reg name = some inst) :
    setEntry reg (name ++ ['=']) = .ok ⟨name, [], inst⟩ := by
  unfold setEntry
  rw [show (name ++ ['='] : Str) = name ++ '=' :: [] from rfl]
  rw [splitN2_append '=' name [] hn]
  simp [hget]

/-- Behavior of `setEntry` on a token whose name is not registered fails with the
not-found message. -/
theorem setEntry_unknown (reg : Registry) (tok : Str)
    (h : Get reg (splitN2 '=' tok).1 = none) :
    setEntry reg tok = .error (notFoundMsg (splitN2 '=' tok).1 reg) := by
  unfold setEntry
  simp only [h]

/-- Feeding a token that resolves to an entry steps `buildTokens`. -/
theorem buildTokens_cons_ok (reg : Registry) (t : Str) (ts : List Str)
    (l : Inspectors) (ent : NamedInspector) (h : setEntry reg t = .ok ent) :
    buildTokens reg (t :: ts) l = buildTokens reg ts (l ++ [ent]) := by
  simp [buildTokens, Inspectors.set, h]

/-- Feeding a failing token aborts `buildTokens` with that error. -/
theorem buildTokens_cons_err (reg : Registry) (t : Str) (ts : List Str)
    (l : Inspectors) (e : Str) (h : setEntry reg t = .error e) :
    buildTokens reg (t :: ts) l = .error e := by
  simp [buildTokens, Inspectors.set, h]

/-! ### C1: token order determines pipeline order; unknown members abort -/

/-- C1: parsing a policy spec splits it on `,` into tokens in
left-to-right order and the pipeline preserves that order: with `a`, `b`,
`c` registered (and `b`'s configuration succeeding), parsing `a,b=cfg,c`
yields exactly the members `a`, `b(cfg)`, `c` in that order; with `b`
unregistered the parse fails and builds nothing, even though `a` is
valid. -/
theorem parse_pipeline_order (reg : Registry) (ia ib ic ibc : Inspector) :
    (Get reg "a".toList = some ia → Get reg "b".toList = some ib →
      Get reg "c".toList = some ic → ib.configure "cfg".toList = .ok ibc →
      parseSpec reg "a,b=cfg,c".toList =
        .ok [⟨"a".toList, [], ia⟩, ⟨"b".toList, "cfg".toList, ibc⟩,
          ⟨"c".toList, [], ic⟩]) ∧
    (∀ (reg₂ : Registry) (i : Inspector),
      Get reg₂ "a".toList = some i → Get reg₂ "b".toList = none →
      parseSpec reg₂ "a,b=cfg,c".toList =
        .error (notFoundMsg "b".toList reg₂)) := by
  have hsplit : "a,b=cfg,c".toList.splitOn ',' =
      ["a".toList, "b=cfg".toList, "c".toList] := by decide
  have htokb : ("b=cfg".toList : Str) = "b".toList ++ '=' :: "cfg".toList := by
    decide
  constructor
  · intro ha hb hc hcfg
    have hs1 := setEntry_noeq reg "a".toList ia (by decide) ha
    have hs2 := setEntry_witheq reg "b".toList "cfg".toList ib (by decide) hb
      (by decide)
    rw [hcfg] at hs2
    have hs3 := setEntry_noeq reg "c".toList ic (by decide) hc
    unfold parseSpec
    rw [hsplit]
    rw [buildTokens_cons_ok reg _ _ _ _ hs1]
    rw [htokb, buildTokens_cons_ok reg _ _ _ _ hs2]
    rw [buildTokens_cons_ok reg _ _ _ _ hs3]
    rfl
  · intro reg₂ i ha hb
    have hs1 := setEntry_noeq reg₂ "a".toList i (by decide) ha
    have hbname : (splitN2 '=' "b=cfg".toList).1 = "b".toList := by decide
    have hs2 := setEntry_unknown reg₂ "b=cfg".toList (by rw [hbname]; exact hb)
    rw [hbname] at hs2
    unfold parseSpec
    rw [hsplit]
    rw [buildTokens_cons_ok reg₂ _ _ _ _ hs1]
    exact buildTokens_cons_err reg₂ _ _ _ _ hs2

/-- Witness for C1 at a concrete registry holding `a`, `b`, `c`. -/
theorem parse_pipeline_order_witness :
    parseSpec [("a".toList, okInsp), ("b".toList, okInsp), ("c".toList, okInsp)]
        "a,b=cfg,c".toList =
      .ok [⟨"a".toList, [], okInsp⟩, ⟨"b".toList, "cfg".toList, baseInsp⟩,
        ⟨"c".toList, [], okInsp⟩] ∧
    parseSpec [("a".toList, okInsp), ("c".toList, okInsp)] "a,b=cfg,c".toList =
      .error (notFoundMsg "b".toList [("a".toList, okInsp), ("c".toList, okInsp)]) := by
  constructor
  · exact (parse_pipeline_order
      [("a".toList, okInsp), ("b".toList, okInsp), ("c".toList, okInsp)]
      okInsp okInsp okInsp baseInsp).1 rfl rfl rfl rfl
  · exact (parse_pipeline_order [("a".toList, okInsp), ("c".toList, okInsp)]
      okInsp okInsp okInsp baseInsp).2
      [("a".toList, okInsp), ("c".toList, okInsp)] okInsp rfl rfl

/-! ### C6: rendering and the parse/render round trip -/

/-- Tokens produced by `splitOnP` contain no separator character. -/
theorem splitOnP_sep_not_mem (p : Char → Bool) (xs : Str) :
    ∀ t ∈ xs.splitOnP p, ∀ a ∈ t, p a = false := by
  induction xs with
  | nil =>
    intro t ht a ha
    simp only [List.splitOnP_nil, List.mem_singleton] at ht
    subst ht
    cases ha
  | cons x xs ih =>
    intro t ht a ha
    rw [List.splitOnP_cons] at ht
    by_cases hx : p x = true
    · rw [if_pos hx] at ht
      rcases List.mem_cons.mp ht with h1 | h1
      · subst h1; cases ha
      · exact ih t h1 a ha
    · rw [if_neg hx] at ht
      cases hsp : xs.splitOnP p with
      | nil => exact absurd hsp (List.splitOnP_ne_nil p xs)
      | cons t0 ts =>
        rw [hsp] at ht
        have hmh : (t0 :: ts).modifyHead (fun u => x :: u) = (x :: t0) :: ts := rfl
        rw [hmh] at ht
        rcases List.mem_cons.mp ht with h1 | h1
        · subst h1
          rcases List.mem_cons.mp ha with h2 | h2
          · subst h2; exact Bool.eq_false_iff.mpr hx
          · exact ih t0 (by rw [hsp]; exact List.mem_cons_self _ _) a h2
        · exact ih t (by rw [hsp]; exact List.mem_cons_of_mem _ h1) a ha

/-- Tokens produced by splitting on `,` contain no comma. -/
theorem mem_splitOn_comma_not_mem (s t : Str) (ht : t ∈ s.splitOn ',') :
    ',' ∉ t := by
  intro hmem
  have h := splitOnP_sep_not_mem (fun b => b == ',') s t ht ',' hmem
  simp at h

/-- Splitting never yields the empty token list. -/
theorem splitOn_comma_ne_nil (s : Str) : s.splitOn ',' ≠ [] :=
  List.splitOnP_ne_nil _ s

/-- Every entry built by `setEntry` from a comma-free token is good. -/
theorem setEntry_good (reg : Registry) (t : Str) (ent : NamedInspector)
    (hok : setEntry reg t = .ok ent) (ht : ',' ∉ t) : GoodEnt reg ent := by
  cases hsf : splitFirst '=' t with
  | none =>
    have hn : '=' ∉ t := not_mem_of_splitFirst_eq_none '=' t hsf
    have hsp : splitN2 '=' t = (t, none) := by simp [splitN2, hsf]
    unfold setEntry at hok
    simp only [hsp] at hok
    cases hG : Get reg t with
    | none => simp [hG] at hok
    | some insp =>
      simp only [hG, if_pos rfl] at hok
      injection hok with hok
      subst hok
      refine ⟨?_, ?_⟩
      · have hr : NamedInspector.render ⟨t, [], insp⟩ = t := by
          simp [NamedInspector.render]
        rw [hr]
        exact setEntry_noeq reg t insp hn hG
      · have hr : NamedInspector.render ⟨t, [], insp⟩ = t := by
          simp [NamedInspector.render]
        rw [hr]
        exact ht
  | some ab =>
    obtain ⟨a, b⟩ := ab
    obtain ⟨htt, hna⟩ := splitFirst_spec '=' t a b hsf
    subst htt
    have hca : ',' ∉ a := fun hm => ht (List.mem_append_left _ hm)
    have hsp : splitN2 '=' (a ++ '=' :: b) = (a, some b) := splitN2_append '=' a b hna
    unfold setEntry at hok
    simp only [hsp] at hok
    cases hG : Get reg a with
    | none => simp [hG] at hok
    | some insp =>
      simp only [hG] at hok
      by_cases hb : b = []
      · subst hb
        simp only [if_pos rfl] at hok
        injection hok with hok
        subst hok
        have hr : NamedInspector.render ⟨a, [], insp⟩ = a := by
          simp [NamedInspector.render]
        refine ⟨?_, ?_⟩
        · rw [hr]
          exact setEntry_noeq reg a insp hna hG
        · rw [hr]
          exact hca
      · simp only [if_neg hb] at hok
        cases hcf : insp.configure b with
        | error e => rw [hcf] at hok; simp at hok
        | ok conf =>
          rw [hcf] at hok
          injection hok with hok
          subst hok
          have hr : NamedInspector.render ⟨a, b, conf⟩ = a ++ '=' :: b := by
            simp [NamedInspector.render, hb]
          refine ⟨?_, ?_⟩
          · rw [hr]
            rw [setEntry_witheq reg a b insp hna hG hb, hcf]
          · rw [hr]
            exact ht

/-- A successful `buildTokens` run over comma-free tokens yields one good
entry per token beyond the accumulator. -/
theorem buildTokens_good (reg : Registry) :
    ∀ (ts : List Str) (l p : Inspectors), buildTokens reg ts l = .ok p →
      (∀ t ∈ ts, ',' ∉ t) →
      p.length = l.length + ts.length ∧ ∀ e ∈ p, e ∈ l ∨ GoodEnt reg e := by
  intro ts
  induction ts with
  | nil =>
    intro l p h hts
    simp only [buildTokens] at h
    injection h with h
    subst h
    exact ⟨by simp, fun e he => Or.inl he⟩
  | cons t ts ih =>
    intro l p h hts
    cases hse : setEntry reg t with
    | error e => rw [buildTokens_cons_err reg t ts l e hse] at h; cases h
    | ok ent =>
      rw [buildTokens_cons_ok reg t ts l ent hse] at h
      have hg : GoodEnt reg ent :=
        setEntry_good reg t ent hse (hts t (List.mem_cons_self _ _))
      obtain ⟨hlen, hmem⟩ := ih (l ++ [ent]) p h
        fun t' ht' => hts t' (List.mem_cons_of_mem _ ht')
      refine ⟨by simp only [List.length_append, List.length_cons, List.length_nil] at hlen ⊢; omega, ?_⟩
      intro e he
      rcases hmem e he with h1 | h1
      · rcases List.mem_append.mp h1 with h2 | h2
        · exact Or.inl h2
        · rw [List.mem_singleton.mp h2]
          exact Or.inr hg
      · exact Or.inr h1

/-- Rebuilding from rendered good entries reproduces the entries. -/
theorem buildTokens_renders (reg : Registry) :
    ∀ (es l : Inspectors), (∀ e ∈ es, setEntry reg e.render = .ok e) →
      buildTokens reg (es.map NamedInspector.render) l = .ok (l ++ es) := by
  intro es
  induction es with
  | nil =>
    intro l h
    simp [buildTokens]
  | cons e es ih =>
    intro l h
    rw [List.map_cons,
      buildTokens_cons_ok reg _ _ _ _ (h e (List.mem_cons_self _ _)),
      ih (l ++ [e]) fun e' he' => h e' (List.mem_cons_of_mem _ he')]
    simp

/-- Counterexample to C6 as stated: the round trip does not hold for
EVERY pipeline.  For the hand-built pipeline `[z]` (name `z` unregistered)
rendering produces `z`, whose parse fails, so `parse(render(p)) ≠ p`. -/
theorem parse_render_roundtrip_cex :
    parseSpec [("x".toList, okInsp), ("y".toList, okInsp)]
        (Inspectors.string [⟨"z".toList, [], okInsp⟩]) ≠
      Except.ok [⟨"z".toList, [], okInsp⟩] := by
  have he : parseSpec [("x".toList, okInsp), ("y".toList, okInsp)]
      (Inspectors.string [⟨"z".toList, [], okInsp⟩]) =
      .error (notFoundMsg "z".toList [("x".toList, okInsp), ("y".toList, okInsp)]) := rfl
  rw [he]
  simp

/-- C6 amended: rendering produces, per entry, `name` when the config is
empty and `name=config` otherwise, joined by `,`; for every pipeline `p`
that a successful parse built (against the same registry),
`parse(render(p)) = p` with equal names, configs, and plugin instances;
in particular the pipeline built from `x=1,y` renders back to exactly
`x=1,y`. -/
theorem parse_render_roundtrip (reg : Registry) :
    (∀ (s : Str) (p : Inspectors), parseSpec reg s = .ok p →
      parseSpec reg (Inspectors.string p) = .ok p) ∧
    parseSpec regXY "x=1,y".toList = .ok pXY ∧
    Inspectors.string pXY = "x=1,y".toList := by
  refine ⟨?_, rfl, rfl⟩
  intro s p h
  unfold parseSpec at h
  obtain ⟨hlen, hmem⟩ := buildTokens_good reg (s.splitOn ',') [] p h
    fun t htok => mem_splitOn_comma_not_mem s t htok
  have hgood : ∀ e ∈ p, GoodEnt reg e := by
    intro e he
    rcases hmem e he with h1 | h1
    · cases h1
    · exact h1
  have hne : p ≠ [] := by
    intro hp
    subst hp
    simp only [List.length_nil, List.length_nil, Nat.zero_add] at hlen
    exact splitOn_comma_ne_nil s (List.length_eq_zero.mp hlen.symm)
  unfold parseSpec
  have hsplit : (Inspectors.string p).splitOn ',' = p.map NamedInspector.render := by
    unfold Inspectors.string
    apply List.splitOn_intercalate
    · intro t htok
      obtain ⟨e, he, rfl⟩ := List.mem_map.mp htok
      exact (hgood e he).2
    · intro hnil
      exact hne (List.map_eq_nil_iff.mp hnil)
  rw [hsplit]
  have hres := buildTokens_renders reg p [] fun e he => (hgood e he).1
  simpa using hres

/-- Witness for C6: the concrete pipeline from `x=1,y` round-trips. -/
theorem parse_render_roundtrip_witness :
    parseSpec regXY (Inspectors.string pXY) = .ok pXY :=
  (parse_render_roundtrip regXY).1 "x=1,y".toList pXY
    (parse_render_roundtrip regXY).2.1

end Kapprover
